import Mathlib

/-!
# omegaup/fcgi: `main.go`

A shallow embedding of the benchmark tool in `src/main.go`:

* the `float64` arithmetic behind the percentile indices (lines 124-126) and the pacer
  interval (line 92);
* the aggregation tail of `main` in benchmark mode (lines 108-127), as the trace of what it
  logs, divides and indexes;
* `worker` (lines 17-60), as the trace of what one worker does against a scripted environment;
* the `get` mode of `main` (lines 129-159).
-/

namespace Main

/-! ## `float64` -/

/-- A finite non-negative `float64`, the value `mant * 2 ^ exp`. Every such `float64` has this
form with `mant < 2 ^ 53`; overflow to infinity and subnormals are out of reach of the values
used in `main.go` and are not modelled. -/
structure F64 where
  mant : Nat
  exp : Int
deriving DecidableEq, Repr

/-- Number of binary digits of `n` (`0` for `0`), by halving. -/
def bitLenAux : Nat → Nat → Nat
  | 0, _ => 0
  | fuel + 1, n => if n = 0 then 0 else bitLenAux fuel (n / 2) + 1

/-- Number of binary digits of `n`. -/
def bitLen (n : Nat) : Nat := bitLenAux n n

/-- How many low bits of `a` do not fit a 53-bit significand. -/
def excessBits (a : Nat) : Nat := bitLen a - 53

/-- Drops the low `sh` bits of `a`, rounding to nearest, ties to even (the IEEE 754 default
rounding, which Go uses). -/
def rne (a sh : Nat) : Nat :=
  let q := a / 2 ^ sh
  let r := a % 2 ^ sh
  if 2 * r < 2 ^ sh then q
  else if 2 ^ sh < 2 * r then q + 1
  else if q % 2 = 0 then q else q + 1

/-- The `float64` nearest to the exact value `a * 2 ^ e`. -/
def F64.round (a : Nat) (e : Int) : F64 :=
  let sh := excessBits a
  ⟨rne a sh, e + sh⟩

/-- The conversion `float64(n)` of a non-negative integer. -/
def F64.ofInt (n : Nat) : F64 := F64.round n 0

/-- The `float64` product `x * y`: the exact product, rounded once. -/
def F64.mul (x y : F64) : F64 := F64.round (x.mant * y.mant) (x.exp + y.exp)

/-- The conversion `int(x)` (also `time.Duration(x)`): truncation toward zero. Go leaves the
result unspecified when the value does not fit an `int64`; here it is the exact integer. -/
def F64.toInt (x : F64) : Nat :=
  if 0 ≤ x.exp then x.mant * 2 ^ x.exp.toNat else x.mant / 2 ^ (-x.exp).toNat

/-- The constant `0.9` as a `float64`: bits `0x3FECCCCCCCCCCCCD`. -/
def c90 : F64 := ⟨8106479329266893, -53⟩

/-- The constant `0.95` as a `float64`: bits `0x3FEE666666666666`. -/
def c95 : F64 := ⟨8556839292003942, -53⟩

/-- The constant `0.99` as a `float64`: bits `0x3FEFAE147AE147AE`. -/
def c99 : F64 := ⟨8917127262193582, -53⟩

/-- The expression `int(float64(len) * c)` of lines 124-126. -/
def floatIndex (len : Nat) (c : F64) : Nat := ((F64.ofInt len).mul c).toInt

/-- The four percentiles the aggregator reports. -/
inductive Percentile
  | p50 | p90 | p95 | p99
deriving DecidableEq, Repr

/-- The rank `P` of a percentile. -/
def Percentile.rank : Percentile → Nat
  | .p50 => 50
  | .p90 => 90
  | .p95 => 95
  | .p99 => 99

/-- The index expression used for each percentile on a slice of length `len`:
`len/2` (line 123), `int(float64(len)*0.9)` (124), `int(float64(len)*0.95)` (125),
`int(float64(len)*0.99)` (126). -/
def Percentile.index (len : Nat) : Percentile → Nat
  | .p50 => len / 2
  | .p90 => floatIndex len c90
  | .p95 => floatIndex len c95
  | .p99 => floatIndex len c99

/-! ## The aggregator: lines 108-127 of `main` -/

/-- The type `time.Duration`: a signed 64-bit count of nanoseconds. -/
abbrev Duration := Int

/-- Reduction to the `int64` range: what Go's wrapping integer arithmetic keeps of a result. -/
def wrap64 (x : Int) : Int := (x + 2 ^ 63) % 2 ^ 64 - 2 ^ 63

/-- The sum `a + b` of two `int64`. -/
def add64 (a b : Duration) : Duration := wrap64 (a + b)

/-- The most elements a slice of `time.Duration` can hold: the Go runtime refuses to allocate
more than `2 ^ 48` bytes (less on 32-bit platforms) and a `time.Duration` takes 8 bytes, so
`len(latencies)` never exceeds this number. -/
def maxSliceLen : Nat := 2 ^ 48 / 8

/-- The receive loop of lines 108-113: starting from `latencies = nil` and
`averageLatency = 0`, every value received from `latencyChan` is added to `averageLatency`
and appended to `latencies`. `received` is what the channel delivers before it is closed. -/
def drain (received : List Duration) : List Duration × Duration :=
  received.foldl (fun st latency => (st.1 ++ [latency], add64 st.2 latency)) ([], 0)

/-- The call `sort.Slice(latencies, func(i, j int) bool { return latencies[i] < latencies[j] })`
of line 119. `sort.Slice` belongs to the Go standard library; its contract is that it leaves a
permutation of the slice in which no element is `less` than an earlier one. For integers there
is only one such permutation (`sortSlice_unique`), so the sorting algorithm is immaterial. -/
def sortSlice (latencies : List Duration) : List Duration :=
  latencies.insertionSort (· ≤ ·)

/-- The statistics the aggregator logs after the count, in the order of lines 121-127. -/
inductive Label
  | mean
  | min
  | pct (p : Percentile)
  | max
deriving DecidableEq, Repr

/-- What the aggregator does that the claims speak about. -/
inductive Event
  /-- Line 115: `log.Printf("Done sending %d requests", len(latencies))`. -/
  | logDone (count : Nat)
  /-- Line 120: the division `averageLatency /= time.Duration(len(latencies))`. -/
  | divide (sum : Duration) (count : Nat)
  /-- An access `latencies[i]` to a slice of length `len`. -/
  | index (i len : Nat)
  /-- One of the `log.Printf` calls of lines 121-127. -/
  | log (l : Label) (v : Duration)
  /-- A run-time panic (division by zero, index out of range): the program stops. -/
  | panic
deriving DecidableEq, Repr

/-- A statement `log.Printf("...", latencies[i])` followed by `rest`: the bounds-checked
access, then the log line; `rest` does not run when the access panics. -/
def logIndexed (latencies : List Duration) (l : Label) (i : Nat) (rest : List Event) :
    List Event :=
  Event.index i latencies.length ::
    match latencies[i]? with
    | some v => Event.log l v :: rest
    | none => [Event.panic]

/-- Lines 108-127: the trace of the aggregator when `latencyChan` delivers `received` and is
then closed. -/
def aggregate (received : List Duration) : List Event :=
  let latencies := (drain received).1
  let averageLatency := (drain received).2
  Event.logDone latencies.length ::
    if latencies.length = 0 then []
    else
      let latencies := sortSlice latencies
      let len := latencies.length
      Event.divide averageLatency len ::
        if len = 0 then [Event.panic]
        else
          Event.log Label.mean (Int.tdiv averageLatency len) ::
          logIndexed latencies Label.min 0
          (logIndexed latencies (Label.pct .p50) (Percentile.index len .p50)
          (logIndexed latencies (Label.pct .p90) (Percentile.index len .p90)
          (logIndexed latencies (Label.pct .p95) (Percentile.index len .p95)
          (logIndexed latencies (Label.pct .p99) (Percentile.index len .p99)
          (logIndexed latencies Label.max (len - 1) [])))))

/-- The count the trace reports (line 115). -/
def reportedCount : List Event → Option Nat
  | [] => none
  | Event.logDone n :: _ => some n
  | _ :: rest => reportedCount rest

/-- The value the trace reports under label `l`, if it reports one. -/
def reported (l : Label) : List Event → Option Duration
  | [] => none
  | Event.log l' v :: rest => if l' = l then some v else reported l rest
  | _ :: rest => reported l rest

/-- The trace of a run with at least one sample in which nothing panics, written out:
`sorted` is the sorted slice, `sum` the accumulated `averageLatency`. -/
def fullTrace (sorted : List Duration) (sum : Duration) : List Event :=
  let len := sorted.length
  [Event.logDone len, Event.divide sum len, Event.log Label.mean (Int.tdiv sum len),
   Event.index 0 len, Event.log Label.min (sorted.getD 0 0),
   Event.index (len / 2) len, Event.log (Label.pct .p50) (sorted.getD (len / 2) 0),
   Event.index (floatIndex len c90) len,
   Event.log (Label.pct .p90) (sorted.getD (floatIndex len c90) 0),
   Event.index (floatIndex len c95) len,
   Event.log (Label.pct .p95) (sorted.getD (floatIndex len c95) 0),
   Event.index (floatIndex len c99) len,
   Event.log (Label.pct .p99) (sorted.getD (floatIndex len c99) 0),
   Event.index (len - 1) len, Event.log Label.max (sorted.getD (len - 1) 0)]

/-! ## `worker`: lines 17-60 -/

/-- How one request goes: `fcgi.Get(req)` returns an error (line 42), or it returns a response
with a status code, whose body `ioutil.ReadAll` then reads with or without an error. -/
inductive GetOutcome
  | getErr
  | response (statusCode : Int) (readOk : Bool)
deriving DecidableEq, Repr

/-- What one pass through the `select` of lines 35-39 receives: the closed `doneChan`, or a
tick; with the tick come the outcome of the request made on it and the value
`time.Since(now)` has on line 58. -/
inductive Select
  | done
  | tick (out : GetOutcome) (elapsed : Duration)
deriving DecidableEq, Repr

/-- The four `log.Printf("ERR: ...")` calls of `worker`. -/
inductive ErrKind
  | dial
  | get
  | http (statusCode : Int)
  | read
deriving DecidableEq, Repr

/-- What a worker does, as seen from outside. -/
inductive Action
  /-- Line 26: `Dial(network, address)`. -/
  | dial
  /-- Line 31: `fcgi.SetKeepAlive(true)`. -/
  | setKeepAlive
  /-- Line 36: the `select` takes `<-doneChan`. -/
  | recvDone
  /-- Line 38: the `select` takes `<-tick`. -/
  | recvTick
  /-- Line 41: `fcgi.Get(req)`. -/
  | get
  /-- Line 52: `ioutil.ReadAll(resp.Body)`. -/
  | readAll
  /-- Line 53: `resp.Body.Close()`. -/
  | closeBody
  /-- One of the `log.Printf("ERR: ...")` calls. -/
  | logErr (k : ErrKind)
  /-- Line 58: `latencyChan <- time.Since(now)`. -/
  | send (latency : Duration)
  /-- The deferred `fcgi.Close()` of line 32. -/
  | close
  /-- The deferred `doneWG.Done()` of line 25. -/
  | wgDone
deriving DecidableEq, Repr

/-- The loop of lines 34-59 against the script of what its `select` receives. When the script
ends the worker is waiting in the `select` and the trace stops there. On every `return` the
deferred calls run, last deferred first: `fcgi.Close()`, then `doneWG.Done()`. -/
def workerLoop : List Select → List Action
  | [] => []
  | Select.done :: _ => [Action.recvDone, Action.close, Action.wgDone]
  | Select.tick out elapsed :: rest =>
    Action.recvTick :: Action.get ::
      match out with
      | GetOutcome.getErr => [Action.logErr ErrKind.get, Action.close, Action.wgDone]
      | GetOutcome.response statusCode readOk =>
        if statusCode ≠ 200 then
          [Action.logErr (ErrKind.http statusCode), Action.close, Action.wgDone]
        else
          Action.readAll :: Action.closeBody ::
            if readOk then Action.send elapsed :: workerLoop rest
            else [Action.logErr ErrKind.read, Action.close, Action.wgDone]

/-- The function `worker`: `dialOk` tells whether `Dial` succeeds, `script` what the `select`
receives on each pass. When `Dial` fails only `doneWG.Done()` has been deferred. -/
def worker (dialOk : Bool) (script : List Select) : List Action :=
  Action.dial ::
    if dialOk then Action.setKeepAlive :: workerLoop script
    else [Action.logErr ErrKind.dial, Action.wgDone]

/-- The latency samples a trace sends on `latencyChan`, in order. -/
def sent : List Action → List Duration
  | [] => []
  | Action.send d :: rest => d :: sent rest
  | _ :: rest => sent rest

/-- Whether a request goes through to line 58: no error from `Get`, status 200, body read. -/
def GetOutcome.ok : GetOutcome → Bool
  | GetOutcome.getErr => false
  | GetOutcome.response statusCode readOk => decide (statusCode = 200) && readOk

/-- A tick whose request succeeds, with the latency measured for it. -/
def okTick (elapsed : Duration) : Select :=
  Select.tick (GetOutcome.response 200 true) elapsed

/-- The trace of consecutive successful passes through the loop, one per latency. -/
def rounds : List Duration → List Action
  | [] => []
  | d :: ds =>
    Action.recvTick :: Action.get :: Action.readAll :: Action.closeBody :: Action.send d ::
      rounds ds

/-- The ways the trace of the loop can end: still waiting in the `select`; the shutdown branch;
a request that fails in `Get`, by its status, or while its body is read. -/
def IsLastPass (f : List Action) : Prop :=
  f = [] ∨
  f = [Action.recvDone, Action.close, Action.wgDone] ∨
  f = [Action.recvTick, Action.get, Action.logErr ErrKind.get, Action.close, Action.wgDone] ∨
  (∃ statusCode : Int, statusCode ≠ 200 ∧
    f = [Action.recvTick, Action.get, Action.logErr (ErrKind.http statusCode), Action.close,
      Action.wgDone]) ∨
  f = [Action.recvTick, Action.get, Action.readAll, Action.closeBody,
    Action.logErr ErrKind.read, Action.close, Action.wgDone]

/-- Nothing is requested after the first `recvDone` of a trace. -/
def NoGetAfterDone (l : List Action) : Prop :=
  ∀ a b : List Action, l = a ++ Action.recvDone :: b → Action.get ∉ b

/-! ## The `get` mode of `main`: lines 129-159 -/

/-- The fields of the response that `main` uses. `header` lists the header map in the order
the `range` loop visits it. -/
structure Response where
  protoMajor : Nat
  protoMinor : Nat
  statusCode : Int
  header : List (String × List String)
deriving DecidableEq, Repr

/-- What the `get` mode does, as seen from outside. -/
inductive GetAction
  /-- A `log.Fatalf("ERR: ...")`: logs and exits with code 1. -/
  | fatal (k : ErrKind)
  /-- Line 142: the status line written to standard error. -/
  | printStatus (protoMajor protoMinor : Nat) (statusCode : Int)
  /-- Line 145: one header value written to standard error. -/
  | printHeader (key value : String)
  /-- Line 148: the empty line that ends the headers. -/
  | printBlank
  /-- Line 156: the body written to standard output. -/
  | writeStdout (contents : List Nat)
deriving DecidableEq, Repr

/-- Lines 141-149: what `-verbose` prints. -/
def printVerbose (resp : Response) : List GetAction :=
  GetAction.printStatus resp.protoMajor resp.protoMinor resp.statusCode ::
    (resp.header.foldr
      (fun kv acc => kv.2.map (fun v => GetAction.printHeader kv.1 v) ++ acc)
      [GetAction.printBlank])

/-- Lines 129-159: what the `get` mode does and the exit code of the process. `dialOk` tells
whether `Dial` succeeds, `get` is the response of `fcgi.Get` (`none` for an error), `body` the
contents `ioutil.ReadAll` returns (`none` for an error). Returning from `main` exits with
code 0; `log.Fatalf` and `os.Exit(1)` exit with code 1. -/
def getMode (verbose dialOk : Bool) (get : Option Response) (body : Option (List Nat)) :
    List GetAction × Nat :=
  if !dialOk then ([GetAction.fatal ErrKind.dial], 1)
  else
    match get with
    | none => ([GetAction.fatal ErrKind.get], 1)
    | some resp =>
      let printed := if verbose then printVerbose resp else []
      match body with
      | none => (printed ++ [GetAction.fatal ErrKind.read], 1)
      | some contents =>
        if resp.statusCode ≠ 0 ∧ resp.statusCode ≠ 200 then
          (printed ++ [GetAction.writeStdout contents], 1)
        else
          (printed ++ [GetAction.writeStdout contents], 0)

/-! ## The pacer: line 92 of `main` -/

/-- The constant `time.Second`, in nanoseconds. -/
def second : Duration := 1000000000

/-- Line 92, `time.NewTicker(time.Second / time.Duration(*rate))`, for a non-negative `rate`:
the interval of the ticker, or `none` when the line panics. The conversion
`time.Duration(*rate)` truncates the rate to an integer; the integer division panics when that
integer is 0; `time.NewTicker` panics when the interval is not positive. -/
def newPacer (rate : F64) : Option Duration :=
  let d : Duration := (rate.toInt : Int)
  if d = 0 then none
  else
    let interval := Int.tdiv second d
    if interval ≤ 0 then none else some interval

/-- The interval of the specification: `1/rate` seconds, truncated to whole nanoseconds, for
a positive `rate`. -/
def specInterval (rate : F64) : Duration :=
  if 0 ≤ rate.exp then ((1000000000 / (rate.mant * 2 ^ rate.exp.toNat) : Nat) : Int)
  else ((1000000000 * 2 ^ (-rate.exp).toNat / rate.mant : Nat) : Int)

/-! ## Auxiliary values for the proofs -/

/-- The integer value of `float64(n)`. -/
def ofIntVal (n : Nat) : Nat := rne n (excessBits n) * 2 ^ excessBits n

/-- The value of `float64(n) * c`, in units of `2 ^ (-53)`, for `c = m * 2 ^ (-53)`. -/
def mulVal (n m : Nat) : Nat :=
  rne (rne n (excessBits n) * m) (excessBits (rne n (excessBits n) * m)) *
    2 ^ (excessBits n + excessBits (rne n (excessBits n) * m))

/-! ## Facts about the `float64` model -/

theorem bitLenAux_le_iff (fuel : Nat) : ∀ n k : Nat, n ≤ fuel →
    (bitLenAux fuel n ≤ k ↔ n < 2 ^ k) := by
  induction fuel with
  | zero =>
    intro n k hn
    have h0 : n = 0 := by omega
    subst h0
    simp [bitLenAux]
  | succ fuel ih =>
    intro n k hn
    by_cases h0 : n = 0
    · subst h0
      simp [bitLenAux]
    · cases k with
      | zero =>
        simp [bitLenAux, h0]
      | succ k =>
        have hdiv : n / 2 ≤ fuel := by omega
        have hpow : 2 ^ (k + 1) = 2 * 2 ^ k := by rw [pow_succ]; ring
        simp only [bitLenAux, h0, if_false, Nat.add_le_add_iff_right, ih (n / 2) k hdiv, hpow]
        omega

theorem bitLen_le_iff (n k : Nat) : bitLen n ≤ k ↔ n < 2 ^ k :=
  bitLenAux_le_iff n n k (Nat.le_refl n)

/-- The two cases of `excessBits`: either the number fits 53 bits, or it has exactly
`53 + excessBits` bits. -/
theorem excessBits_spec (a : Nat) :
    (excessBits a = 0 ∧ a < 2 ^ 53) ∨
    (1 ≤ excessBits a ∧ 2 ^ (52 + excessBits a) ≤ a ∧ a < 2 ^ (53 + excessBits a)) := by
  unfold excessBits
  by_cases h : bitLen a ≤ 53
  · left
    exact ⟨by omega, (bitLen_le_iff a 53).1 h⟩
  · right
    have hlen : bitLen a = 53 + (bitLen a - 53) := by omega
    refine ⟨by omega, ?_, ?_⟩
    · have hn : ¬ bitLen a ≤ 52 + (bitLen a - 53) := by omega
      rw [bitLen_le_iff] at hn
      omega
    · exact (bitLen_le_iff a _).1 (by omega)

theorem rne_zero (a : Nat) : rne a 0 = a := by
  simp [rne, Nat.mod_one]

/-- Rounding moves a number by at most half a unit of the dropped bits. -/
theorem rne_bounds (a sh : Nat) :
    2 * (rne a sh * 2 ^ sh) ≤ 2 * a + 2 ^ sh ∧ 2 * a ≤ 2 * (rne a sh * 2 ^ sh) + 2 ^ sh := by
  have hp : 0 < 2 ^ sh := Nat.two_pow_pos sh
  have hdm := Nat.div_add_mod a (2 ^ sh)
  have hr := Nat.mod_lt a hp
  rw [Nat.mul_comm] at hdm
  unfold rne
  simp only
  generalize a / 2 ^ sh = q at *
  generalize a % 2 ^ sh = r at *
  generalize 2 ^ sh = p at *
  split_ifs <;> (try simp only [Nat.add_mul, Nat.one_mul]) <;> omega

/-- Rounding never goes below the truncation. -/
theorem rne_ge (a sh : Nat) : a / 2 ^ sh ≤ rne a sh := by
  unfold rne
  simp only
  split_ifs <;> omega

/-- Rounding to 53 bits has relative error at most `2 ^ (-53)`. -/
theorem round_rel (a : Nat) :
    2 ^ 53 * (rne a (excessBits a) * 2 ^ excessBits a) ≤ (2 ^ 53 + 1) * a ∧
    (2 ^ 53 - 1) * a ≤ 2 ^ 53 * (rne a (excessBits a) * 2 ^ excessBits a) := by
  rcases excessBits_spec a with ⟨h0, _⟩ | ⟨_, hlo, _⟩
  · rw [h0, rne_zero]
    omega
  · have hb := rne_bounds a (excessBits a)
    rw [pow_add] at hlo
    generalize rne a (excessBits a) * 2 ^ excessBits a = v at *
    generalize 2 ^ excessBits a = p at *
    omega

theorem toInt_mk (P t : Nat) (e : Int) (he : e = (t : Int) - 53) :
    F64.toInt ⟨P, e⟩ = P * 2 ^ t / 2 ^ 53 := by
  subst he
  unfold F64.toInt
  simp only
  split_ifs with h
  · have ht : 53 ≤ t := by omega
    have hexp : ((t : Int) - 53).toNat = t - 53 := by omega
    have hsplit : 2 ^ t = 2 ^ (t - 53) * 2 ^ 53 := by
      rw [← pow_add]
      congr 1
      omega
    rw [hexp, hsplit, ← Nat.mul_assoc, Nat.mul_div_cancel _ (Nat.two_pow_pos 53)]
  · have ht : t < 53 := by omega
    have hexp : (-((t : Int) - 53)).toNat = 53 - t := by omega
    have hsplit : 2 ^ 53 = 2 ^ (53 - t) * 2 ^ t := by
      rw [← pow_add]
      congr 1
      omega
    rw [hexp, hsplit, Nat.mul_div_mul_right _ _ (Nat.two_pow_pos t)]

theorem floatIndex_eq (n m : Nat) : floatIndex n ⟨m, -53⟩ = mulVal n m / 2 ^ 53 := by
  unfold floatIndex F64.mul F64.ofInt F64.round mulVal
  simp only
  apply toInt_mk
  push_cast
  ring

theorem ofIntVal_bounds (n : Nat) :
    2 ^ 53 * ofIntVal n ≤ (2 ^ 53 + 1) * n ∧ (2 ^ 53 - 1) * n ≤ 2 ^ 53 * ofIntVal n :=
  round_rel n

theorem mulVal_bounds (n m : Nat) :
    2 ^ 53 * mulVal n m ≤ (2 ^ 53 + 1) * (m * ofIntVal n) ∧
    (2 ^ 53 - 1) * (m * ofIntVal n) ≤ 2 ^ 53 * mulVal n m := by
  have hr := round_rel (rne n (excessBits n) * m)
  have hX : mulVal n m =
      rne (rne n (excessBits n) * m) (excessBits (rne n (excessBits n) * m)) *
        2 ^ excessBits (rne n (excessBits n) * m) * 2 ^ excessBits n := by
    unfold mulVal
    rw [pow_add]
    ring
  have hV : m * ofIntVal n = rne n (excessBits n) * m * 2 ^ excessBits n := by
    unfold ofIntVal
    ring
  rw [hX, hV]
  generalize rne (rne n (excessBits n) * m) (excessBits (rne n (excessBits n) * m)) *
    2 ^ excessBits (rne n (excessBits n) * m) = v at *
  generalize rne n (excessBits n) * m = a at *
  generalize 2 ^ excessBits n = p at *
  obtain ⟨h1, h2⟩ := hr
  constructor
  · calc 2 ^ 53 * (v * p) = (2 ^ 53 * v) * p := by ring
      _ ≤ ((2 ^ 53 + 1) * a) * p := Nat.mul_le_mul_right p h1
      _ = (2 ^ 53 + 1) * (a * p) := by ring
  · calc (2 ^ 53 - 1) * (a * p) = ((2 ^ 53 - 1) * a) * p := by ring
      _ ≤ (2 ^ 53 * v) * p := Nat.mul_le_mul_right p h2
      _ = 2 ^ 53 * (v * p) := by ring

theorem floatIndex_c99_lt (n : Nat) (hn : 1 ≤ n) : floatIndex n c99 < n := by
  have h := floatIndex_eq n 8917127262193582
  have hv := ofIntVal_bounds n
  have hm := mulVal_bounds n 8917127262193582
  change floatIndex n c99 = _ at h
  rw [h]
  generalize mulVal n 8917127262193582 = x at *
  generalize ofIntVal n = v at *
  omega

theorem floatIndex_c90_ge (n : Nat) : n / 2 ≤ floatIndex n c90 := by
  have h := floatIndex_eq n 8106479329266893
  have hv := ofIntVal_bounds n
  have hm := mulVal_bounds n 8106479329266893
  change floatIndex n c90 = _ at h
  rw [h]
  generalize mulVal n 8106479329266893 = x at *
  generalize ofIntVal n = v at *
  omega

theorem floatIndex_c90_le_c95 (n : Nat) : floatIndex n c90 ≤ floatIndex n c95 := by
  have h := floatIndex_eq n 8106479329266893
  have hm := mulVal_bounds n 8106479329266893
  have h' := floatIndex_eq n 8556839292003942
  have hm' := mulVal_bounds n 8556839292003942
  change floatIndex n c90 = _ at h
  change floatIndex n c95 = _ at h'
  rw [h, h']
  generalize mulVal n 8106479329266893 = x at *
  generalize mulVal n 8556839292003942 = y at *
  generalize ofIntVal n = v at *
  omega

theorem floatIndex_c95_le_c99 (n : Nat) : floatIndex n c95 ≤ floatIndex n c99 := by
  have h := floatIndex_eq n 8556839292003942
  have hm := mulVal_bounds n 8556839292003942
  have h' := floatIndex_eq n 8917127262193582
  have hm' := mulVal_bounds n 8917127262193582
  change floatIndex n c95 = _ at h
  change floatIndex n c99 = _ at h'
  rw [h, h']
  generalize mulVal n 8556839292003942 = x at *
  generalize mulVal n 8917127262193582 = y at *
  generalize ofIntVal n = v at *
  omega

theorem excessBits_eq_zero (n : Nat) (hn : n < 2 ^ 53) : excessBits n = 0 := by
  rcases excessBits_spec n with ⟨h0, _⟩ | ⟨h1, hlo, _⟩
  · exact h0
  · have : 2 ^ 53 ≤ 2 ^ (52 + excessBits n) := Nat.pow_le_pow_right (by decide) (by omega)
    omega

theorem floatIndex_small (n m : Nat) (hn : n < 2 ^ 53) :
    floatIndex n ⟨m, -53⟩ = rne (n * m) (excessBits (n * m)) * 2 ^ excessBits (n * m) / 2 ^ 53 := by
  rw [floatIndex_eq]
  unfold mulVal
  rw [excessBits_eq_zero n hn, rne_zero, Nat.zero_add]

theorem excessBits_cases (a b : Nat) (ha : a < 2 ^ (53 + b)) :
    ∃ s, s ≤ b ∧ excessBits a = s ∧ (s = 0 → a < 2 ^ 53) ∧
      (1 ≤ s → 2 ^ (52 + s) ≤ a ∧ a < 2 ^ (53 + s)) := by
  refine ⟨excessBits a, ?_, rfl, ?_, ?_⟩
  · rcases excessBits_spec a with ⟨h0, _⟩ | ⟨h1, hlo, _⟩
    · omega
    · by_contra hc
      have : 2 ^ (53 + b) ≤ 2 ^ (52 + excessBits a) := Nat.pow_le_pow_right (by decide) (by omega)
      omega
  · intro h0
    rcases excessBits_spec a with ⟨_, h⟩ | ⟨h1, _, _⟩
    · exact h
    · omega
  · intro h1
    rcases excessBits_spec a with ⟨h0, _⟩ | ⟨_, hlo, hhi⟩
    · omega
    · exact ⟨hlo, hhi⟩

/-- A multiple `k * 2 ^ 53` of the rounding unit that lies less than half a unit above `a` is
not passed downward by rounding. -/
theorem round_floor (a s k : Nat) (hs : s ≤ 53) (h : 2 * (k * 2 ^ 53 - a) < 2 ^ s) :
    k * 2 ^ 53 ≤ rne a s * 2 ^ s := by
  have hb := (rne_bounds a s).2
  have hsplit : 2 ^ 53 = 2 ^ (53 - s) * 2 ^ s := by
    rw [← pow_add]
    congr 1
    omega
  have hK : k * 2 ^ 53 = k * 2 ^ (53 - s) * 2 ^ s := by rw [hsplit]; ring
  have hlt : k * 2 ^ (53 - s) * 2 ^ s < (rne a s + 1) * 2 ^ s := by
    rw [← hK, Nat.add_mul, Nat.one_mul]
    omega
  have hle : k * 2 ^ (53 - s) ≤ rne a s := by
    have := Nat.lt_of_mul_lt_mul_right hlt
    omega
  rw [hK]
  exact Nat.mul_le_mul_right _ hle

theorem floatIndex_c99_eq (n : Nat) (hn : n < 142159079146801) :
    floatIndex n c99 = n * 99 / 100 := by
  have h := floatIndex_small n 8917127262193582 (by omega)
  change floatIndex n c99 = _ at h
  rw [h]
  obtain ⟨s, hs, he, h0, h1⟩ := excessBits_cases (n * 8917127262193582) 48 (by norm_num; omega)
  rw [he]
  by_cases h48 : s = 48
  · subst h48
    have hlo := (h1 (by decide)).1
    have hn' : 142159079146796 ≤ n := by
      norm_num at hlo
      omega
    interval_cases n <;> decide
  · have hp : 2 ^ s ≤ 2 ^ 47 := Nat.pow_le_pow_right (by decide) (by omega)
    have hpos := Nat.two_pow_pos s
    apply Nat.div_eq_of_lt_le
    · apply round_floor _ s _ (by omega)
      rcases Nat.eq_zero_or_pos s with hz | hs1
      · have := h0 hz
        subst hz
        omega
      · obtain ⟨hlo, hhi⟩ := h1 hs1
        rw [pow_add] at hlo hhi
        generalize 2 ^ s = p at *
        omega
    · have hb := (rne_bounds (n * 8917127262193582) s).1
      generalize rne (n * 8917127262193582) s * 2 ^ s = v at *
      generalize 2 ^ s = p at *
      omega

theorem floatIndex_c90_eq (n : Nat) (hn : n < 142159079146801) :
    floatIndex n c90 = n * 90 / 100 := by
  have h := floatIndex_small n 8106479329266893 (by omega)
  change floatIndex n c90 = _ at h
  rw [h]
  obtain ⟨s, hs, he, h0, h1⟩ := excessBits_cases (n * 8106479329266893) 48 (by norm_num; omega)
  rw [he]
  have hp : 2 ^ s ≤ 2 ^ 48 := Nat.pow_le_pow_right (by decide) hs
  have hpos := Nat.two_pow_pos s
  apply Nat.div_eq_of_lt_le
  · apply round_floor _ s _ (by omega)
    rcases Nat.eq_zero_or_pos s with hz | hs1
    · have := h0 hz
      subst hz
      omega
    · obtain ⟨hlo, hhi⟩ := h1 hs1
      rw [pow_add] at hlo hhi
      generalize 2 ^ s = p at *
      omega
  · have hb := (rne_bounds (n * 8106479329266893) s).1
    generalize rne (n * 8106479329266893) s * 2 ^ s = v at *
    generalize 2 ^ s = p at *
    omega

theorem floatIndex_c95_eq (n : Nat) (hn : n < 142159079146801) :
    floatIndex n c95 = n * 95 / 100 := by
  have h := floatIndex_small n 8556839292003942 (by omega)
  change floatIndex n c95 = _ at h
  rw [h]
  obtain ⟨s, hs, he, h0, h1⟩ := excessBits_cases (n * 8556839292003942) 48 (by norm_num; omega)
  rw [he]
  have hp : 2 ^ s ≤ 2 ^ 48 := Nat.pow_le_pow_right (by decide) hs
  have hpos := Nat.two_pow_pos s
  apply Nat.div_eq_of_lt_le
  · apply round_floor _ s _ (by omega)
    rcases Nat.eq_zero_or_pos s with hz | hs1
    · have := h0 hz
      subst hz
      omega
    · obtain ⟨hlo, hhi⟩ := h1 hs1
      rw [pow_add] at hlo hhi
      generalize 2 ^ s = p at *
      omega
  · have hb := (rne_bounds (n * 8556839292003942) s).1
    generalize rne (n * 8556839292003942) s * 2 ^ s = v at *
    generalize 2 ^ s = p at *
    omega

/-! ## Facts about the aggregator -/

theorem wrap64_def (x : Int) :
    wrap64 x = (x + 9223372036854775808) % 18446744073709551616 - 9223372036854775808 := by
  unfold wrap64
  norm_num

theorem wrap64_add64 (a b : Int) : add64 (wrap64 a) b = wrap64 (a + b) := by
  show (wrap64 (wrap64 a + b) : Int) = wrap64 (a + b)
  simp only [wrap64_def]
  omega

theorem wrap64_of_range (x : Int) (hlo : -2 ^ 63 ≤ x) (hhi : x < 2 ^ 63) : wrap64 x = x := by
  rw [wrap64_def]
  norm_num at hlo hhi
  omega

theorem wrap64_range (x : Int) : -2 ^ 63 ≤ wrap64 x ∧ wrap64 x < 2 ^ 63 := by
  rw [wrap64_def]
  norm_num
  omega

theorem drain_foldl (l : List Duration) : ∀ (acc : List Duration) (s : Int),
    l.foldl (fun st latency => (st.1 ++ [latency], add64 st.2 latency)) (acc, wrap64 s) =
      (acc ++ l, wrap64 (s + l.sum)) := by
  induction l with
  | nil => intro acc s; simp
  | cons x xs ih =>
    intro acc s
    simp only [List.foldl_cons, wrap64_add64, ih, List.sum_cons, List.append_assoc,
      List.singleton_append, add_assoc]

/-- The receive loop keeps the samples in arrival order and accumulates their sum on `int64`. -/
theorem drain_eq (received : List Duration) :
    drain received = (received, wrap64 received.sum) := by
  have h := drain_foldl received [] 0
  have h0 : wrap64 0 = 0 := by decide
  rw [h0] at h
  unfold drain
  rw [h]
  simp

theorem sortSlice_perm (l : List Duration) : (sortSlice l).Perm l :=
  List.perm_insertionSort _ l

theorem sortSlice_sorted (l : List Duration) : (sortSlice l).Sorted (· ≤ ·) :=
  List.sorted_insertionSort _ l

theorem sortSlice_length (l : List Duration) : (sortSlice l).length = l.length :=
  (sortSlice_perm l).length_eq

/-- Any ascending permutation of the slice is the one `sortSlice` returns. -/
theorem sortSlice_unique (l s : List Duration) (hp : s.Perm l) (hs : s.Sorted (· ≤ ·)) :
    s = sortSlice l :=
  List.eq_of_perm_of_sorted (hp.trans (sortSlice_perm l).symm) hs (sortSlice_sorted l)

theorem sortSlice_congr (l₁ l₂ : List Duration) (h : l₁.Perm l₂) :
    sortSlice l₁ = sortSlice l₂ :=
  sortSlice_unique l₂ (sortSlice l₁) ((sortSlice_perm l₁).trans h) (sortSlice_sorted l₁)

theorem logIndexed_of_lt (latencies : List Duration) (l : Label) (i : Nat)
    (rest : List Event) (h : i < latencies.length) :
    logIndexed latencies l i rest =
      Event.index i latencies.length :: Event.log l (latencies.getD i 0) :: rest := by
  unfold logIndexed
  simp [List.getD, List.getElem?_eq_getElem h]

/-- In an ascending slice, a smaller index holds a smaller value. -/
theorem sorted_getD_le (s : List Duration) (hs : s.Sorted (· ≤ ·)) (i j : Nat) (hij : i ≤ j)
    (hj : j < s.length) : s.getD i 0 ≤ s.getD j 0 := by
  have hi : i < s.length := lt_of_le_of_lt hij hj
  have h := hs.rel_get_of_le (a := ⟨i, hi⟩) (b := ⟨j, hj⟩) hij
  simpa [List.getD, List.getElem?_eq_getElem hi, List.getElem?_eq_getElem hj] using h

/-- The four percentile indices of a non-empty slice are in range. -/
theorem percentile_index_lt (len : Nat) (hlen : 1 ≤ len) (p : Percentile) :
    Percentile.index len p < len := by
  have h99 := floatIndex_c99_lt len hlen
  have h1 := floatIndex_c90_le_c95 len
  have h2 := floatIndex_c95_le_c99 len
  cases p <;> simp only [Percentile.index] <;> omega

/-- With at least one sample nothing panics, and the trace is `fullTrace`. -/
theorem aggregate_eq_fullTrace (received : List Duration) (h : received ≠ []) :
    aggregate received = fullTrace (sortSlice received) (wrap64 received.sum) := by
  have hpos : 1 ≤ received.length := by
    cases received with
    | nil => exact absurd rfl h
    | cons x xs => simp
  have hlen := sortSlice_length received
  have hne : received.length ≠ 0 := by omega
  have hne' : (sortSlice received).length ≠ 0 := by omega
  have hpos' : 1 ≤ (sortSlice received).length := by omega
  unfold aggregate fullTrace
  simp only [drain_eq, hne, hne', if_false]
  rw [logIndexed_of_lt _ _ _ _ (by omega),
    logIndexed_of_lt _ _ _ _ (percentile_index_lt _ hpos' .p50),
    logIndexed_of_lt _ _ _ _ (percentile_index_lt _ hpos' .p90),
    logIndexed_of_lt _ _ _ _ (percentile_index_lt _ hpos' .p95),
    logIndexed_of_lt _ _ _ _ (percentile_index_lt _ hpos' .p99),
    logIndexed_of_lt _ _ _ _ (by omega)]
  simp [Percentile.index, hlen]

theorem aggregate_nil : aggregate [] = [Event.logDone 0] := by
  decide

theorem reported_fullTrace (sorted : List Duration) (sum : Duration) :
    reportedCount (fullTrace sorted sum) = some sorted.length ∧
    reported Label.mean (fullTrace sorted sum) = some (Int.tdiv sum sorted.length) ∧
    reported Label.min (fullTrace sorted sum) = some (sorted.getD 0 0) ∧
    reported (Label.pct .p50) (fullTrace sorted sum) = some (sorted.getD (sorted.length / 2) 0) ∧
    reported (Label.pct .p90) (fullTrace sorted sum) =
      some (sorted.getD (floatIndex sorted.length c90) 0) ∧
    reported (Label.pct .p95) (fullTrace sorted sum) =
      some (sorted.getD (floatIndex sorted.length c95) 0) ∧
    reported (Label.pct .p99) (fullTrace sorted sum) =
      some (sorted.getD (floatIndex sorted.length c99) 0) ∧
    reported Label.max (fullTrace sorted sum) = some (sorted.getD (sorted.length - 1) 0) := by
  simp [fullTrace, reported, reportedCount]

theorem length_pos_of_ne_nil (received : List Duration) (h : received ≠ []) :
    1 ≤ received.length := by
  cases received with
  | nil => exact absurd rfl h
  | cons x xs => simp

/-- The four percentile indices of a non-empty slice never exceed the last index, whatever
the length. -/
theorem percentile_index_le (N : Nat) (hN : 1 ≤ N) (p : Percentile) :
    Percentile.index N p ≤ N - 1 := by
  have := percentile_index_lt N hN p
  omega

/-- The index is `floor(N*P/100)` clamped to `N-1`: for `P = 50` at every length, for the
three indices computed in `float64` at every length below `142159079146801`. -/
theorem percentile_index_eq (N : Nat) (hN : 1 ≤ N) (p : Percentile)
    (h : p = Percentile.p50 ∨ N < 142159079146801) :
    Percentile.index N p = min (N * Percentile.rank p / 100) (N - 1) := by
  cases p
  · simp only [Percentile.index, Percentile.rank]
    omega
  · have hlt : N < 142159079146801 := by simpa using h
    simp only [Percentile.index, Percentile.rank, floatIndex_c90_eq N hlt]
    omega
  · have hlt : N < 142159079146801 := by simpa using h
    simp only [Percentile.index, Percentile.rank, floatIndex_c95_eq N hlt]
    omega
  · have hlt : N < 142159079146801 := by simpa using h
    simp only [Percentile.index, Percentile.rank, floatIndex_c99_eq N hlt]
    omega

/-- The length bound of `percentile_index_eq` cannot be raised: at `142159079146801`, about
four times `maxSliceLen`, the product `float64(len)*0.99` is rounded up to the next integer
before `int` truncates it, one more than `floor(len*99/100)`. -/
theorem percentile_index_past_bound :
    maxSliceLen < 142159079146801 ∧
    Percentile.index 142159079146801 Percentile.p99 = 140737488355333 ∧
    142159079146801 * Percentile.rank Percentile.p99 / 100 = 140737488355332 := by
  set_option maxRecDepth 100000 in decide

/-! ## The claims about the aggregator -/

/-- C1. For every sample count `N ≥ 1` that a slice of `time.Duration` can have and every
percentile `P` in {50, 90, 95, 99}, the index the aggregator uses (`len/2`,
`int(float64(len)*0.9)`, `int(float64(len)*0.95)`, `int(float64(len)*0.99)`) lies in
`[0, N-1]` and equals `floor(N*P/100)` clamped to `N-1`, so the access never goes out of
range. -/
theorem percentile_index_spec (N : Nat) (hN : 1 ≤ N) (hmax : N ≤ maxSliceLen)
    (p : Percentile) :
    0 ≤ Percentile.index N p ∧ Percentile.index N p ≤ N - 1 ∧
    Percentile.index N p = min (N * Percentile.rank p / 100) (N - 1) := by
  have hlt : N < 142159079146801 := by
    have h : maxSliceLen < 142159079146801 := by decide
    omega
  exact ⟨Nat.zero_le _, percentile_index_le N hN p, percentile_index_eq N hN p (Or.inr hlt)⟩

/-- Witness for `percentile_index_spec`: ten samples, 90th percentile, index 9. -/
theorem percentile_index_spec_witness :
    0 ≤ Percentile.index 10 Percentile.p90 ∧ Percentile.index 10 Percentile.p90 ≤ 10 - 1 ∧
    Percentile.index 10 Percentile.p90 =
      min (10 * Percentile.rank Percentile.p90 / 100) (10 - 1) :=
  percentile_index_spec 10 (by decide) (by decide) Percentile.p90

/-- C3. For every non-empty list of samples the reported mean is the accumulated
`averageLatency` divided by the sample count with truncation toward zero; the accumulated
value is the sum of the samples on `int64`, hence the exact sum whenever that fits an
`int64`. -/
theorem mean_spec (received : List Duration) (h : received ≠ []) :
    reported Label.mean (aggregate received) =
      some (Int.tdiv (drain received).2 received.length) ∧
    (drain received).2 = wrap64 received.sum ∧
    (-2 ^ 63 ≤ received.sum → received.sum < 2 ^ 63 →
      reported Label.mean (aggregate received) =
        some (Int.tdiv received.sum received.length)) := by
  have hm := (reported_fullTrace (sortSlice received) (wrap64 received.sum)).2.1
  rw [sortSlice_length] at hm
  rw [aggregate_eq_fullTrace received h, drain_eq]
  refine ⟨hm, rfl, ?_⟩
  intro hlo hhi
  rw [hm, wrap64_of_range _ hlo hhi]

/-- Witness for `mean_spec`: samples 3, 4 and 9 have mean 5 (16 / 3 truncated). -/
theorem mean_spec_witness :
    reported Label.mean (aggregate [3, 4, 9]) = some 5 := by
  have h := (mean_spec [3, 4, 9] (by decide)).2.2 (by decide) (by decide)
  rw [h]
  decide

/-- C4. Arrival order does not matter: the aggregator's whole trace, and so the count, the
mean, the min, the four percentiles and the max it reports, is the same for a list of samples
and for any permutation of it. -/
theorem aggregate_perm (l₁ l₂ : List Duration) (h : l₁.Perm l₂) :
    aggregate l₁ = aggregate l₂ ∧
    reportedCount (aggregate l₁) = reportedCount (aggregate l₂) ∧
    ∀ l : Label, reported l (aggregate l₁) = reported l (aggregate l₂) := by
  have heq : aggregate l₁ = aggregate l₂ := by
    unfold aggregate
    simp only [drain_eq]
    rw [h.length_eq, sortSlice_congr l₁ l₂ h, h.sum_eq]
  rw [heq]
  exact ⟨rfl, rfl, fun _ => rfl⟩

/-- Witness for `aggregate_perm`: the samples 30, 10, 20 in two arrival orders. -/
theorem aggregate_perm_witness :
    aggregate [30, 10, 20] = aggregate [20, 30, 10] ∧
    reportedCount (aggregate [30, 10, 20]) = reportedCount (aggregate [20, 30, 10]) ∧
    ∀ l : Label, reported l (aggregate [30, 10, 20]) = reported l (aggregate [20, 30, 10]) :=
  aggregate_perm [30, 10, 20] [20, 30, 10] (by decide)

theorem getD_zero_eq_head (s : List Duration) (h : 1 ≤ s.length) :
    some (s.getD 0 0) = s.head? := by
  cases s with
  | nil => simp at h
  | cons x xs => simp

theorem getD_last_eq_getLast (s : List Duration) (h : 1 ≤ s.length) :
    some (s.getD (s.length - 1) 0) = s.getLast? := by
  rw [List.getLast?_eq_getElem?]
  have hlt : s.length - 1 < s.length := by omega
  simp [List.getD, List.getElem?_eq_getElem hlt]

theorem getD_mem (s : List Duration) (i : Nat) (h : i < s.length) : s.getD i 0 ∈ s := by
  simp [List.getD, List.getElem?_eq_getElem h]

/-- Every element of an ascending slice lies between its first and its last element. -/
theorem sorted_bounds (s : List Duration) (hs : s.Sorted (· ≤ ·)) (x : Duration) (hx : x ∈ s) :
    s.getD 0 0 ≤ x ∧ x ≤ s.getD (s.length - 1) 0 := by
  obtain ⟨i, hi, rfl⟩ := List.getElem_of_mem hx
  have hxi : s[i] = s.getD i 0 := by
    simp [List.getD, List.getElem?_eq_getElem hi]
  rw [hxi]
  exact ⟨sorted_getD_le s hs 0 i (Nat.zero_le i) hi,
    sorted_getD_le s hs i (s.length - 1) (by omega) (by omega)⟩

/-- C5. For every non-empty list of samples: the sorted slice is an ascending permutation of
the samples, the reported min is its first element and the reported max its last element, and
these are the least and the greatest of the samples. -/
theorem min_max_spec (received : List Duration) (h : received ≠ []) :
    (sortSlice received).Sorted (· ≤ ·) ∧ (sortSlice received).Perm received ∧
    reported Label.min (aggregate received) = (sortSlice received).head? ∧
    reported Label.max (aggregate received) = (sortSlice received).getLast? ∧
    ∃ mn mx : Duration,
      reported Label.min (aggregate received) = some mn ∧
      reported Label.max (aggregate received) = some mx ∧
      mn ∈ received ∧ mx ∈ received ∧ ∀ x ∈ received, mn ≤ x ∧ x ≤ mx := by
  have hpos : 1 ≤ (sortSlice received).length := by
    rw [sortSlice_length]
    exact length_pos_of_ne_nil received h
  have hr := reported_fullTrace (sortSlice received) (wrap64 received.sum)
  have hperm := sortSlice_perm received
  have hsorted := sortSlice_sorted received
  rw [aggregate_eq_fullTrace received h]
  refine ⟨hsorted, hperm, ?_, ?_, _, _, hr.2.2.1, hr.2.2.2.2.2.2.2, ?_, ?_, ?_⟩
  · rw [hr.2.2.1, getD_zero_eq_head _ hpos]
  · rw [hr.2.2.2.2.2.2.2, getD_last_eq_getLast _ hpos]
  · exact hperm.mem_iff.1 (getD_mem _ _ (by omega))
  · exact hperm.mem_iff.1 (getD_mem _ _ (by omega))
  · intro x hx
    exact sorted_bounds _ hsorted x (hperm.mem_iff.2 hx)

/-- Witness for `min_max_spec`: of the samples 30, 10, 20 the min is 10 and the max is 30. -/
theorem min_max_spec_witness :
    reported Label.min (aggregate [30, 10, 20]) = (sortSlice [30, 10, 20]).head? ∧
    reported Label.max (aggregate [30, 10, 20]) = (sortSlice [30, 10, 20]).getLast? :=
  ⟨(min_max_spec [30, 10, 20] (by decide)).2.2.1, (min_max_spec [30, 10, 20] (by decide)).2.2.2.1⟩

/-- C6. With zero samples the aggregator logs a count of 0 and does nothing else: no division
and no slice access. In every run the logged count is the number of samples, nothing panics,
and whenever the division or a slice access is reached the count is at least 1 (and the
divisor is that count, the index is within the slice). -/
theorem aggregate_zero_samples :
    aggregate [] = [Event.logDone 0] ∧
    ∀ received : List Duration,
      reportedCount (aggregate received) = some received.length ∧
      Event.panic ∉ aggregate received ∧
      (∀ sum count, Event.divide sum count ∈ aggregate received →
        count = received.length ∧ 1 ≤ received.length) ∧
      (∀ i len, Event.index i len ∈ aggregate received →
        len = received.length ∧ i < len ∧ 1 ≤ received.length) := by
  refine ⟨aggregate_nil, ?_⟩
  intro received
  by_cases h : received = []
  · subst h
    rw [aggregate_nil]
    simp [reportedCount]
  · have hpos := length_pos_of_ne_nil received h
    have hlen := sortSlice_length received
    have hpos' : 1 ≤ (sortSlice received).length := by omega
    have h50 := percentile_index_lt _ hpos' .p50
    have h90 := percentile_index_lt _ hpos' .p90
    have h95 := percentile_index_lt _ hpos' .p95
    have h99 := percentile_index_lt _ hpos' .p99
    simp only [Percentile.index] at h50 h90 h95 h99
    rw [aggregate_eq_fullTrace received h]
    refine ⟨?_, ?_, ?_, ?_⟩
    · rw [(reported_fullTrace _ _).1, hlen]
    · simp [fullTrace]
    · intro sum count hmem
      simp [fullTrace] at hmem
      omega
    · intro i len hmem
      simp [fullTrace] at hmem
      omega

/-- C10. For every non-empty list of samples the reported statistics are ordered,
min ≤ 50th ≤ 90th ≤ 95th ≤ 99th ≤ max, the four percentile indices being non-decreasing in
`P` and within `[0, N-1]` of the sorted slice. -/
theorem stats_ordered (received : List Duration) (h : received ≠ []) :
    (Percentile.index received.length .p50 ≤ Percentile.index received.length .p90 ∧
      Percentile.index received.length .p90 ≤ Percentile.index received.length .p95 ∧
      Percentile.index received.length .p95 ≤ Percentile.index received.length .p99 ∧
      Percentile.index received.length .p99 ≤ received.length - 1) ∧
    ∃ mn v50 v90 v95 v99 mx : Duration,
      reported Label.min (aggregate received) = some mn ∧
      reported (Label.pct .p50) (aggregate received) = some v50 ∧
      reported (Label.pct .p90) (aggregate received) = some v90 ∧
      reported (Label.pct .p95) (aggregate received) = some v95 ∧
      reported (Label.pct .p99) (aggregate received) = some v99 ∧
      reported Label.max (aggregate received) = some mx ∧
      mn ≤ v50 ∧ v50 ≤ v90 ∧ v90 ≤ v95 ∧ v95 ≤ v99 ∧ v99 ≤ mx := by
  have hpos := length_pos_of_ne_nil received h
  have hlen := sortSlice_length received
  have h5090 := floatIndex_c90_ge received.length
  have h9095 := floatIndex_c90_le_c95 received.length
  have h9599 := floatIndex_c95_le_c99 received.length
  have h99 := floatIndex_c99_lt received.length hpos
  have hr := reported_fullTrace (sortSlice received) (wrap64 received.sum)
  have hs := sortSlice_sorted received
  rw [aggregate_eq_fullTrace received h]
  rw [hlen] at hr
  refine ⟨⟨h5090, h9095, h9599, by simp only [Percentile.index]; omega⟩,
    _, _, _, _, _, _, hr.2.2.1, hr.2.2.2.1, hr.2.2.2.2.1, hr.2.2.2.2.2.1, hr.2.2.2.2.2.2.1,
    hr.2.2.2.2.2.2.2, ?_, ?_, ?_, ?_, ?_⟩
  · exact sorted_getD_le _ hs _ _ (Nat.zero_le _) (by omega)
  · exact sorted_getD_le _ hs _ _ h5090 (by omega)
  · exact sorted_getD_le _ hs _ _ h9095 (by omega)
  · exact sorted_getD_le _ hs _ _ h9599 (by omega)
  · exact sorted_getD_le _ hs _ _ (by omega) (by omega)

/-- Witness for `stats_ordered`: the samples 30, 10, 20. -/
theorem stats_ordered_witness :
    ∃ mn v50 v90 v95 v99 mx : Duration,
      reported Label.min (aggregate [30, 10, 20]) = some mn ∧
      reported (Label.pct .p50) (aggregate [30, 10, 20]) = some v50 ∧
      reported (Label.pct .p90) (aggregate [30, 10, 20]) = some v90 ∧
      reported (Label.pct .p95) (aggregate [30, 10, 20]) = some v95 ∧
      reported (Label.pct .p99) (aggregate [30, 10, 20]) = some v99 ∧
      reported Label.max (aggregate [30, 10, 20]) = some mx ∧
      mn ≤ v50 ∧ v50 ≤ v90 ∧ v90 ≤ v95 ∧ v95 ≤ v99 ∧ v99 ≤ mx :=
  (stats_ordered [30, 10, 20] (by decide)).2

/-! ## Facts about `worker` -/

theorem workerLoop_okTick_append (ds : List Duration) (rest : List Select) :
    workerLoop (ds.map okTick ++ rest) = rounds ds ++ workerLoop rest := by
  induction ds with
  | nil => simp [rounds]
  | cons d ds ih => simp [okTick, workerLoop, rounds, ih]

theorem sent_rounds_append (ds : List Duration) (f : List Action) :
    sent (rounds ds ++ f) = ds ++ sent f := by
  induction ds with
  | nil => simp [rounds]
  | cons d ds ih => simp [rounds, sent, ih]

theorem count_get_rounds_append (ds : List Duration) (f : List Action) :
    (rounds ds ++ f).count Action.get = ds.length + f.count Action.get := by
  induction ds with
  | nil => simp [rounds]
  | cons d ds ih =>
    simp only [rounds, List.cons_append, List.length_cons]
    rw [List.count_cons_of_ne (by decide), List.count_cons_self,
      List.count_cons_of_ne (by decide), List.count_cons_of_ne (by decide),
      List.count_cons_of_ne (by simp), ih]
    omega

theorem count_recvTick_rounds_append (ds : List Duration) (f : List Action) :
    (rounds ds ++ f).count Action.recvTick = ds.length + f.count Action.recvTick := by
  induction ds with
  | nil => simp [rounds]
  | cons d ds ih =>
    simp only [rounds, List.cons_append, List.length_cons]
    rw [List.count_cons_self, List.count_cons_of_ne (by decide),
      List.count_cons_of_ne (by decide), List.count_cons_of_ne (by decide),
      List.count_cons_of_ne (by simp), ih]
    omega

theorem count_wgDone_rounds_append (ds : List Duration) (f : List Action) :
    (rounds ds ++ f).count Action.wgDone = f.count Action.wgDone := by
  induction ds with
  | nil => simp [rounds]
  | cons d ds ih =>
    simp only [rounds, List.cons_append]
    rw [List.count_cons_of_ne (by decide), List.count_cons_of_ne (by decide),
      List.count_cons_of_ne (by decide), List.count_cons_of_ne (by decide),
      List.count_cons_of_ne (by simp), ih]

/-- The pass of the loop on a tick whose request fails: what follows the `Get` up to the
deferred calls. -/
theorem workerLoop_fail (out : GetOutcome) (e : Duration) (rest : List Select)
    (h : out.ok = false) :
    ∃ tail : List Action,
      workerLoop (Select.tick out e :: rest) =
        Action.recvTick :: Action.get :: (tail ++ [Action.close, Action.wgDone]) ∧
      sent tail = [] ∧ tail.count Action.get = 0 ∧ tail.count Action.recvTick = 0 ∧
      tail.count Action.wgDone = 0 ∧
      IsLastPass (Action.recvTick :: Action.get :: (tail ++ [Action.close, Action.wgDone])) := by
  cases out with
  | getErr =>
    refine ⟨[Action.logErr ErrKind.get], by simp [workerLoop], by simp [sent], by decide,
      by decide, by decide, ?_⟩
    right; right; left
    rfl
  | response statusCode readOk =>
    by_cases hs : statusCode = 200
    · have hr : readOk = false := by simpa [GetOutcome.ok, hs] using h
      subst hs hr
      refine ⟨[Action.readAll, Action.closeBody, Action.logErr ErrKind.read],
        by simp [workerLoop], by simp [sent], by decide, by decide, by decide, ?_⟩
      right; right; right; right
      rfl
    · refine ⟨[Action.logErr (ErrKind.http statusCode)], by simp [workerLoop, hs],
        by simp [sent], by simp, by simp, by simp, ?_⟩
      right; right; right; left
      exact ⟨statusCode, hs, rfl⟩

/-- After a failed request the rest of the script is never looked at. -/
theorem workerLoop_fail_rest (out : GetOutcome) (e : Duration) (rest : List Select)
    (h : out.ok = false) :
    workerLoop (Select.tick out e :: rest) = workerLoop [Select.tick out e] := by
  cases out with
  | getErr => simp [workerLoop]
  | response statusCode readOk =>
    by_cases hs : statusCode = 200
    · have hr : readOk = false := by simpa [GetOutcome.ok, hs] using h
      subst hs hr
      simp [workerLoop]
    · simp [workerLoop, hs]

/-- The trace of the loop is a run of successful passes followed by one last pass. -/
theorem workerLoop_shape (script : List Select) :
    ∃ (ds : List Duration) (f : List Action),
      workerLoop script = rounds ds ++ f ∧ IsLastPass f := by
  induction script with
  | nil => exact ⟨[], [], by simp [workerLoop, rounds], Or.inl rfl⟩
  | cons s rest ih =>
    cases s with
    | done => exact ⟨[], _, by simp [workerLoop, rounds], Or.inr (Or.inl rfl)⟩
    | tick out e =>
      by_cases hok : out.ok = true
      · obtain ⟨ds, f, hds, hf⟩ := ih
        cases out with
        | getErr => simp [GetOutcome.ok] at hok
        | response statusCode readOk =>
          simp only [GetOutcome.ok, Bool.and_eq_true, decide_eq_true_eq] at hok
          obtain ⟨hs, hr⟩ := hok
          subst hs hr
          exact ⟨e :: ds, f, by simp [workerLoop, rounds, hds], hf⟩
      · obtain ⟨tail, ht, -, -, -, -, hl⟩ := workerLoop_fail out e rest (by simpa using hok)
        exact ⟨[], _, by simpa [rounds] using ht, hl⟩

theorem isLastPass_counts (f : List Action) (h : IsLastPass f) :
    sent f = [] ∧ f.count Action.get = f.count Action.recvTick ∧ f.count Action.wgDone ≤ 1 := by
  rcases h with rfl | rfl | rfl | ⟨st, _, rfl⟩ | rfl
  · simp [sent]
  · exact ⟨by simp [sent], by decide, by decide⟩
  · exact ⟨by simp [sent], by decide, by decide⟩
  · exact ⟨by simp [sent], by simp, by simp⟩
  · exact ⟨by simp [sent], by decide, by decide⟩

theorem noGetAfterDone_nil : NoGetAfterDone [] := by
  intro a b h
  simp at h

theorem noGetAfterDone_cons (x : Action) (l : List Action) (hl : NoGetAfterDone l)
    (hx : x = Action.recvDone → Action.get ∉ l) : NoGetAfterDone (x :: l) := by
  intro a b h
  cases a with
  | nil =>
    simp only [List.nil_append, List.cons.injEq] at h
    obtain ⟨h1, h2⟩ := h
    rw [← h2]
    exact hx h1
  | cons y a =>
    simp only [List.cons_append, List.cons.injEq] at h
    exact hl a b h.2

theorem noGetAfterDone_workerLoop (script : List Select) :
    NoGetAfterDone (workerLoop script) := by
  induction script with
  | nil => exact noGetAfterDone_nil
  | cons s rest ih =>
    cases s with
    | done =>
      simp only [workerLoop]
      refine noGetAfterDone_cons _ _ (noGetAfterDone_cons _ _ (noGetAfterDone_cons _ _
        noGetAfterDone_nil ?_) ?_) ?_ <;> simp
    | tick out e =>
      cases out with
      | getErr =>
        simp only [workerLoop]
        refine noGetAfterDone_cons _ _ (noGetAfterDone_cons _ _ (noGetAfterDone_cons _ _
          (noGetAfterDone_cons _ _ (noGetAfterDone_cons _ _ noGetAfterDone_nil ?_) ?_) ?_)
          ?_) ?_ <;> simp
      | response statusCode readOk =>
        by_cases hs : statusCode = 200
        · cases readOk with
          | true =>
            simp only [workerLoop, hs, ne_eq, not_true_eq_false, if_false, if_true]
            refine noGetAfterDone_cons _ _ (noGetAfterDone_cons _ _ (noGetAfterDone_cons _ _
              (noGetAfterDone_cons _ _ (noGetAfterDone_cons _ _ ih ?_) ?_) ?_) ?_) ?_ <;> simp
          | false =>
            simp only [workerLoop, hs, ne_eq, not_true_eq_false, if_false]
            refine noGetAfterDone_cons _ _ (noGetAfterDone_cons _ _ (noGetAfterDone_cons _ _
              (noGetAfterDone_cons _ _ (noGetAfterDone_cons _ _ (noGetAfterDone_cons _ _
              (noGetAfterDone_cons _ _ noGetAfterDone_nil ?_) ?_) ?_) ?_) ?_) ?_) ?_ <;> simp
        · simp only [workerLoop, ne_eq, hs, not_false_eq_true, if_true]
          refine noGetAfterDone_cons _ _ (noGetAfterDone_cons _ _ (noGetAfterDone_cons _ _
            (noGetAfterDone_cons _ _ (noGetAfterDone_cons _ _ noGetAfterDone_nil ?_) ?_) ?_)
            ?_) ?_ <;> simp

/-! ## The claims about `worker`, the `get` mode and the pacer -/

/-- C7. A failure is terminal and emits nothing. If `Dial` fails the worker only logs and
signals completion. On the first tick whose request fails (error from `Get`, status other than
200, error while reading the body), after any number of successful ticks, the worker sends no
sample for that tick, makes no further request whatever the environment would offer next, runs
the deferred `fcgi.Close()` and signals completion exactly once. No run signals completion
more than once. A worker whose first request fails, or whose connection always answers with
status 500, sends no sample. -/
theorem worker_failure_terminal :
    (∀ script : List Select,
      worker false script = [Action.dial, Action.logErr ErrKind.dial, Action.wgDone]) ∧
    (∀ (ds : List Duration) (out : GetOutcome) (e : Duration) (rest : List Select),
      out.ok = false →
      (∃ tail : List Action,
        worker true (ds.map okTick ++ Select.tick out e :: rest) =
          Action.dial :: Action.setKeepAlive ::
            (rounds ds ++ Action.recvTick :: Action.get ::
              (tail ++ [Action.close, Action.wgDone])) ∧
        sent tail = [] ∧ tail.count Action.get = 0 ∧ tail.count Action.wgDone = 0) ∧
      worker true (ds.map okTick ++ Select.tick out e :: rest) =
        worker true (ds.map okTick ++ [Select.tick out e]) ∧
      sent (worker true (ds.map okTick ++ Select.tick out e :: rest)) = ds ∧
      (worker true (ds.map okTick ++ Select.tick out e :: rest)).count Action.get =
        ds.length + 1 ∧
      (worker true (ds.map okTick ++ Select.tick out e :: rest)).count Action.wgDone = 1) ∧
    (∀ (dialOk : Bool) (script : List Select),
      (worker dialOk script).count Action.wgDone ≤ 1) ∧
    (∀ (out : GetOutcome) (e : Duration) (rest : List Select), out.ok = false →
      sent (worker true (Select.tick out e :: rest)) = []) ∧
    (∀ script : List Select,
      (∀ s ∈ script, s = Select.done ∨
        ∃ (readOk : Bool) (e : Duration), s = Select.tick (GetOutcome.response 500 readOk) e) →
      sent (worker true script) = []) := by
  have key : ∀ (ds : List Duration) (out : GetOutcome) (e : Duration) (rest : List Select),
      out.ok = false →
      ∃ tail : List Action,
        worker true (ds.map okTick ++ Select.tick out e :: rest) =
          Action.dial :: Action.setKeepAlive ::
            (rounds ds ++ Action.recvTick :: Action.get ::
              (tail ++ [Action.close, Action.wgDone])) ∧
        workerLoop [Select.tick out e] =
          Action.recvTick :: Action.get :: (tail ++ [Action.close, Action.wgDone]) ∧
        sent tail = [] ∧ tail.count Action.get = 0 ∧ tail.count Action.wgDone = 0 := by
    intro ds out e rest h
    obtain ⟨tail, ht, hsent, hget, -, hwg, -⟩ := workerLoop_fail out e [] h
    refine ⟨tail, ?_, ht, hsent, hget, hwg⟩
    simp only [worker, if_true, workerLoop_okTick_append, workerLoop_fail_rest out e rest h, ht]
  have hsentTail : ∀ tail : List Action, sent tail = [] →
      sent (tail ++ [Action.close, Action.wgDone]) = [] := by
    intro tail h
    induction tail with
    | nil => simp [sent]
    | cons a t ih =>
      cases a <;> simp_all [sent]
  refine ⟨?_, ?_, ?_, ?_, ?_⟩
  · intro script
    simp [worker]
  · intro ds out e rest h
    obtain ⟨tail, ht, hone, hsent, hget, hwg⟩ := key ds out e rest h
    refine ⟨⟨tail, ht, hsent, hget, hwg⟩, ?_, ?_, ?_, ?_⟩
    · rw [ht]
      simp only [worker, if_true, workerLoop_okTick_append, hone]
    · rw [ht]
      simp only [sent, sent_rounds_append, hsentTail tail hsent, List.append_nil]
    · rw [ht, List.count_cons_of_ne (by decide), List.count_cons_of_ne (by decide),
        count_get_rounds_append, List.count_cons_of_ne (by decide), List.count_cons_self,
        List.count_append, hget]
      simp
    · rw [ht, List.count_cons_of_ne (by decide), List.count_cons_of_ne (by decide),
        count_wgDone_rounds_append, List.count_cons_of_ne (by decide),
        List.count_cons_of_ne (by decide), List.count_append, hwg]
      simp
  · intro dialOk script
    cases dialOk with
    | false => simp [worker]
    | true =>
      obtain ⟨ds, f, hds, hf⟩ := workerLoop_shape script
      simp only [worker, if_true, hds]
      rw [List.count_cons_of_ne (by decide), List.count_cons_of_ne (by decide),
        count_wgDone_rounds_append]
      exact (isLastPass_counts f hf).2.2
  · intro out e rest h
    obtain ⟨tail, ht, -, hsent, -, -⟩ := key [] out e rest h
    simp only [List.map_nil, List.nil_append] at ht
    rw [ht]
    simp only [sent, rounds, List.nil_append, hsentTail tail hsent]
  · intro script hall
    cases script with
    | nil => simp [worker, workerLoop, sent]
    | cons s rest =>
      rcases hall s (List.mem_cons_self _ _) with rfl | ⟨readOk, e, rfl⟩
      · simp [worker, workerLoop, sent]
      · simp [worker, workerLoop, sent]

/-- C9. Each worker is strictly sequential. After `Dial` and `SetKeepAlive` the trace of a
worker is a run of complete passes `recvTick, get, readAll, closeBody, send d`, one for each
sample it sends, followed by one last pass (waiting in the `select`, the shutdown branch, or a
failed request): each request directly follows the receipt of its own tick, each sample
directly follows its own successful request, and the next tick is taken only after that. Hence
requests issued = ticks consumed, samples sent ≤ requests issued, and no request follows the
shutdown branch. -/
theorem worker_sequential (dialOk : Bool) (script : List Select) :
    (∃ (ds : List Duration) (f : List Action), IsLastPass f ∧
      worker dialOk script =
        Action.dial :: (if dialOk then Action.setKeepAlive :: (rounds ds ++ f)
          else [Action.logErr ErrKind.dial, Action.wgDone]) ∧
      sent (worker dialOk script) = (if dialOk then ds else [])) ∧
    (worker dialOk script).count Action.get = (worker dialOk script).count Action.recvTick ∧
    (sent (worker dialOk script)).length ≤ (worker dialOk script).count Action.get ∧
    NoGetAfterDone (worker dialOk script) := by
  obtain ⟨ds, f, hds, hf⟩ := workerLoop_shape script
  obtain ⟨hfs, hfc, -⟩ := isLastPass_counts f hf
  cases dialOk with
  | false =>
    refine ⟨⟨ds, f, hf, by simp [worker], by simp [worker, sent]⟩, by simp [worker],
      by simp [worker, sent], ?_⟩
    simp only [worker, Bool.false_eq_true, if_false]
    refine noGetAfterDone_cons _ _ (noGetAfterDone_cons _ _ (noGetAfterDone_cons _ _
      noGetAfterDone_nil ?_) ?_) ?_ <;> simp
  | true =>
    have hsent : sent (worker true script) = ds := by
      simp only [worker, if_true, hds, sent, sent_rounds_append, hfs, List.append_nil]
    have hget : (worker true script).count Action.get = ds.length + f.count Action.get := by
      simp only [worker, if_true, hds]
      rw [List.count_cons_of_ne (by decide), List.count_cons_of_ne (by decide),
        count_get_rounds_append]
    have htick : (worker true script).count Action.recvTick =
        ds.length + f.count Action.recvTick := by
      simp only [worker, if_true, hds]
      rw [List.count_cons_of_ne (by decide), List.count_cons_of_ne (by decide),
        count_recvTick_rounds_append]
    refine ⟨⟨ds, f, hf, by simp [worker, hds], by simpa using hsent⟩, ?_, ?_, ?_⟩
    · rw [hget, htick, hfc]
    · rw [hsent, hget]
      omega
    · simp only [worker, if_true]
      refine noGetAfterDone_cons _ _ (noGetAfterDone_cons _ _
        (noGetAfterDone_workerLoop script) ?_) ?_ <;> simp

/-- C8. In `get` mode, when `Dial`, `Get` and the read of the body all succeed, the process
exits with code 1 if and only if the status code is neither 0 nor 200, and with code 0
otherwise; a response with status 0 exits with code 0. The body is written to standard output
in both cases. -/
theorem getMode_exit_code (verbose : Bool) (resp : Response) (contents : List Nat) :
    ((getMode verbose true (some resp) (some contents)).2 = 1 ↔
      (resp.statusCode ≠ 0 ∧ resp.statusCode ≠ 200)) ∧
    ((getMode verbose true (some resp) (some contents)).2 = 0 ↔
      (resp.statusCode = 0 ∨ resp.statusCode = 200)) ∧
    (resp.statusCode = 0 → (getMode verbose true (some resp) (some contents)).2 = 0) ∧
    GetAction.writeStdout contents ∈ (getMode verbose true (some resp) (some contents)).1 := by
  unfold getMode
  by_cases h0 : resp.statusCode = 0 <;> by_cases h200 : resp.statusCode = 200 <;>
    simp [h0, h200]

/-- C2, the code at the failing inputs. With `-rate 0.5` the conversion `time.Duration(*rate)`
gives 0 and line 92 panics on the integer division, where the specification asks for a tick
every 2 s; with `-rate 2.5` the conversion gives 2 and the ticker fires every 500 ms, where the
specification asks for 400 ms. With the default `-rate 10` the two agree on 100 ms. -/
theorem newPacer_fractional_rate :
    newPacer ⟨1, -1⟩ = none ∧ specInterval ⟨1, -1⟩ = 2000000000 ∧
    newPacer ⟨5, -1⟩ = some 500000000 ∧ specInterval ⟨5, -1⟩ = 400000000 ∧
    newPacer (F64.ofInt 10) = some 100000000 ∧ specInterval (F64.ofInt 10) = 100000000 := by
  decide

end Main
